import Mathlib

/-!
Verification of the MontePy record-assembly core.

Part 1 embeds the combinator grammar of `src/lib.rs` (the chumsky
parser returned by the function on lines 8-14): zero or more blocks, each a
run of characters other than ampersand and newline followed by either the
two-character sequence ampersand-newline or a newline followed by six
spaces, with the whole input required to be consumed.  Repetition in the
source library is greedy with rewind on a failed iteration, which the
functional embedding reproduces; the fuel argument is a termination device
only (every successful block consumes at least two characters, so the fuel
`length + 1` is never exhausted).

Part 2 models the line classifier and record assembler that the design
document specifies around that grammar; those components have no Rust
source, so every definition there is marked as modelled from the spec.
-/

/-- Predicate embedded from the source combinator that accepts one character
other than an ampersand or a newline. -/
def noneOfAmpNl (c : Char) : Bool := !(c == '&' || c == '\n')

/-- The first literal of the source choice: a newline followed by six space
characters. -/
def nlSixSpaces : List Char := ['\n', ' ', ' ', ' ', ' ', ' ', ' ']

/-- The second literal of the source choice: an ampersand followed by a
newline. -/
def ampNl : List Char := ['&', '\n']

/-- Embedding of the source choice between the two continuation literals,
tried in source order; on success it returns the matched literal and the
remaining input. -/
def parseChoice (s : List Char) : Option (List Char × List Char) :=
  if nlSixSpaces.isPrefixOf s then some (nlSixSpaces, s.drop nlSixSpaces.length)
  else if ampNl.isPrefixOf s then some (ampNl, s.drop ampNl.length)
  else none

/-- One iteration of the outer repetition of the source grammar: a greedy
run of ordinary characters followed by one continuation literal. -/
def parseBlock (s : List Char) : Option (List Char × List Char) :=
  parseChoice (s.dropWhile noneOfAmpNl)

/-- Fueled unfolding of the outer repetition: collect blocks until one
fails, rewinding the failed attempt. -/
def runBlocksF : Nat → List Char → List (List Char) × List Char
  | 0, s => ([], s)
  | n + 1, s =>
    match parseBlock s with
    | some (tok, r) =>
        let p := runBlocksF n r
        (tok :: p.1, p.2)
    | none => ([], s)

/-- The outer repetition of the source grammar, with fuel that is always
sufficient because a successful block consumes at least two characters. -/
def runBlocks (s : List Char) : List (List Char) × List Char :=
  runBlocksF (s.length + 1) s

/-- Output type of the source grammar, embedded from the enum in
`src/lib.rs`. -/
inductive McnpInput where
  | Input : List (List Char) → McnpInput
deriving DecidableEq

/-- Embedding of the parser built in `src/lib.rs` lines 8-14 as it is run
by `parse`, which requires the entire input to be consumed: the collected
continuation literals are wrapped in the output constructor, and any
unconsumed remainder is a parse failure. -/
def inputParser (s : List Char) : Option McnpInput :=
  if (runBlocks s).2.isEmpty then some (McnpInput.Input (runBlocks s).1) else none

theorem parseChoice_some_len {s t r : List Char} (h : parseChoice s = some (t, r)) :
    r.length + 2 ≤ s.length := by
  unfold parseChoice at h
  split at h
  · rename_i hp
    rw [ List.isPrefixOf_iff_prefix] at hp
    have hl := hp.length_le
    simp only [Option.some.injEq, Prod.mk.injEq] at h
    have : r = s.drop nlSixSpaces.length := h.2.symm
    subst this
    simp [nlSixSpaces] at hl ⊢
    omega
  · split at h
    · rename_i hp
      rw [ List.isPrefixOf_iff_prefix] at hp
      have hl := hp.length_le
      simp only [Option.some.injEq, Prod.mk.injEq] at h
      have : r = s.drop ampNl.length := h.2.symm
      subst this
      simp [ampNl] at hl ⊢
      omega
    · exact absurd h (by simp)

theorem parseChoice_some_shape {s t r : List Char} (h : parseChoice s = some (t, r)) :
    s = t ++ r ∧ (t = ampNl ∨ t = nlSixSpaces) := by
  unfold parseChoice at h
  split at h
  · rename_i hp
    rw [ List.isPrefixOf_iff_prefix] at hp
    obtain ⟨u, hu⟩ := hp
    simp only [Option.some.injEq, Prod.mk.injEq] at h
    obtain ⟨ht, hr⟩ := h
    subst ht
    constructor
    · rw [← hr, ← hu, List.drop_left]
    · right; rfl
  · split at h
    · rename_i hp
      rw [ List.isPrefixOf_iff_prefix] at hp
      obtain ⟨u, hu⟩ := hp
      simp only [Option.some.injEq, Prod.mk.injEq] at h
      obtain ⟨ht, hr⟩ := h
      subst ht
      constructor
      · rw [← hr, ← hu, List.drop_left]
      · left; rfl
    · exact absurd h (by simp)

theorem parseBlock_some_len {s t r : List Char} (h : parseBlock s = some (t, r)) :
    r.length < s.length := by
  unfold parseBlock at h
  have h1 := parseChoice_some_len h
  have h2 : (s.dropWhile noneOfAmpNl).length ≤ s.length :=
    (List.dropWhile_sublist noneOfAmpNl).length_le
  omega

theorem runBlocksF_congr : ∀ n m s, s.length < n → s.length < m →
    runBlocksF n s = runBlocksF m s := by
  intro n
  induction n with
  | zero => intro m s h; omega
  | succ k ih =>
    intro m s hn hm
    match m, hm with
    | m' + 1, hm =>
      show runBlocksF (k + 1) s = runBlocksF (m' + 1) s
      unfold runBlocksF
      cases hb : parseBlock s with
      | none => rfl
      | some p =>
        obtain ⟨tok, r⟩ := p
        have hr := parseBlock_some_len hb
        simp only
        rw [ih m' r (by omega) (by omega)]

theorem runBlocks_eq (s : List Char) :
    runBlocks s = match parseBlock s with
      | some (tok, r) => ((tok :: (runBlocks r).1, (runBlocks r).2) :
          List (List Char) × List Char)
      | none => ([], s) := by
  unfold runBlocks
  conv_lhs => rw [runBlocksF]
  cases hb : parseBlock s with
  | none => rfl
  | some p =>
    obtain ⟨tok, r⟩ := p
    have hr := parseBlock_some_len hb
    simp only
    rw [runBlocksF_congr (s.length) (r.length + 1) r (by omega) (by omega)]

/-- Declarative language transcribed from claim C9: a concatenation of zero
or more blocks, each a possibly empty run of characters other than
ampersand and newline followed by either the ampersand-newline pair or a
newline followed by six spaces.  This definition follows the claim's words
and is compared against the embedding of the source grammar. -/
inductive BlockLang : List Char → Prop where
  | nil : BlockLang []
  | block (pre tail rest : List Char)
      (hpre : ∀ c ∈ pre, c ≠ '&' ∧ c ≠ '\n')
      (htail : tail = ampNl ∨ tail = nlSixSpaces)
      (hrest : BlockLang rest) : BlockLang (pre ++ (tail ++ rest))

theorem dropWhile_append_all {p : Char → Bool} :
    ∀ (l₁ l₂ : List Char), (∀ a ∈ l₁, p a = true) →
      (l₁ ++ l₂).dropWhile p = l₂.dropWhile p := by
  intro l₁
  induction l₁ with
  | nil => intro l₂ _; rfl
  | cons a l ih =>
    intro l₂ h
    rw [List.cons_append, List.dropWhile_cons, if_pos (h a (by simp))]
    exact ih l₂ fun b hb => h b (by simp [hb])

theorem parseChoice_ampNl (r : List Char) :
    parseChoice (ampNl ++ r) = some (ampNl, r) := by
  unfold parseChoice
  rw [if_neg, if_pos]
  · rw [List.drop_left]
  · rw [ List.isPrefixOf_iff_prefix]
    exact List.prefix_append ampNl r
  · intro h
    rw [ List.isPrefixOf_iff_prefix] at h
    obtain ⟨u, hu⟩ := h
    simp [nlSixSpaces, ampNl, List.append_eq_cons_iff] at hu

theorem parseChoice_nlSix (r : List Char) :
    parseChoice (nlSixSpaces ++ r) = some (nlSixSpaces, r) := by
  unfold parseChoice
  rw [if_pos]
  · rw [List.drop_left]
  · rw [ List.isPrefixOf_iff_prefix]
    exact List.prefix_append nlSixSpaces r

theorem noneOfAmpNl_iff (c : Char) : noneOfAmpNl c = true ↔ c ≠ '&' ∧ c ≠ '\n' := by
  unfold noneOfAmpNl
  constructor
  · intro h
    constructor <;> intro he <;> subst he <;> simp at h
  · intro ⟨h1, h2⟩
    simp only [Bool.not_eq_true', Bool.or_eq_false_iff]
    exact ⟨by simpa using h1, by simpa using h2⟩

theorem runBlocks_accept_lang : ∀ s : List Char, (runBlocks s).2 = [] → BlockLang s := by
  suffices H : ∀ n, ∀ s : List Char, s.length < n → (runBlocks s).2 = [] → BlockLang s by
    intro s
    exact H (s.length + 1) s (by omega)
  intro n
  induction n with
  | zero => intro s h; omega
  | succ k ih =>
    intro s hlen hacc
    rw [runBlocks_eq] at hacc
    cases hb : parseBlock s with
    | none =>
      rw [hb] at hacc
      simp only at hacc
      subst hacc
      exact BlockLang.nil
    | some p =>
      obtain ⟨tok, r⟩ := p
      rw [hb] at hacc
      simp only at hacc
      have hlt := parseBlock_some_len hb
      have hlang : BlockLang r := ih r (by omega) hacc
      have hshape := parseChoice_some_shape (s := s.dropWhile noneOfAmpNl) hb
      obtain ⟨hsplit, htok⟩ := hshape
      have hs : s = s.takeWhile noneOfAmpNl ++ (tok ++ r) := by
        conv_lhs => rw [← List.takeWhile_append_dropWhile (p := noneOfAmpNl) (l := s)]
        rw [hsplit]
      rw [hs]
      exact BlockLang.block _ tok r
        (fun c hc => (noneOfAmpNl_iff c).1 (List.mem_takeWhile_imp hc))
        (htok.imp id id) hlang

theorem runBlocks_lang_accept : ∀ s : List Char, BlockLang s → (runBlocks s).2 = [] := by
  intro s h
  induction h with
  | nil =>
    rw [runBlocks_eq]
    rfl
  | block pre tail rest hpre htail _hrest ih =>
    rw [runBlocks_eq]
    have hdrop : (pre ++ (tail ++ rest)).dropWhile noneOfAmpNl = tail ++ rest := by
      rw [dropWhile_append_all pre (tail ++ rest)
        (fun a ha => (noneOfAmpNl_iff a).2 (hpre a ha))]
      rcases htail with h | h <;> subst h <;>
        simp [ampNl, nlSixSpaces, List.dropWhile_cons, noneOfAmpNl]
    have hblock : parseBlock (pre ++ (tail ++ rest)) = some (tail, rest) := by
      unfold parseBlock
      rw [hdrop]
      rcases htail with h | h <;> subst h
      · exact parseChoice_ampNl rest
      · exact parseChoice_nlSix rest
    rw [hblock]
    simpa using ih

theorem blockLang_last_of_nl : ∀ u : List Char, BlockLang u →
    ∀ s : List Char, u = s ++ ['\n'] → s.getLast? = some '&' := by
  intro u hu
  induction hu with
  | nil =>
    intro s hs
    have := congrArg List.length hs
    simp at this
  | block pre tail rest hpre htail hrest ih =>
    intro s hs
    cases hr : rest.getLast? with
    | none =>
      rw [List.getLast?_eq_none_iff] at hr
      subst hr
      rcases htail with h | h <;> subst h
      · have hs2 : (pre ++ ['&']) ++ ['\n'] = s ++ ['\n'] := by
          rw [← hs]; simp [ampNl]
        have hseq := List.append_cancel_right hs2
        rw [← hseq, List.getLast?_concat]
      · have h1 : (pre ++ (nlSixSpaces ++ ([] : List Char))).getLast? = some ' ' := by
          simp [List.getLast?_append, nlSixSpaces]
        rw [hs, List.getLast?_concat] at h1
        simp at h1
    | some a =>
      have hu_last : (pre ++ (tail ++ rest)).getLast? = some a := by
        rw [List.getLast?_append, List.getLast?_append, hr]
        rfl
      rw [hs, List.getLast?_concat] at hu_last
      have ha : a = '\n' := by
        injection hu_last with h
        exact h.symm
      subst ha
      have hsplit : rest.dropLast ++ ['\n'] = rest :=
        List.dropLast_append_getLast? '\n' (by rw [hr]; rfl)
      have ihh := ih rest.dropLast hsplit.symm
      have hs2 : (pre ++ (tail ++ rest.dropLast)) ++ ['\n'] = s ++ ['\n'] := by
        rw [← hs]
        conv_rhs => rw [← hsplit]
        simp [List.append_assoc]
      have hseq := List.append_cancel_right hs2
      rw [← hseq, List.getLast?_append, List.getLast?_append, ihh]
      rfl

/-- Claim C9: the source parser accepts an input exactly when it is a
concatenation of zero or more blocks, each a run of characters other than
ampersand and newline followed by the ampersand-newline pair or a newline
followed by six spaces; the empty input is accepted, and an input ending in
a newline whose matched pair partner is absent (the preceding character is
not an ampersand) is rejected. -/
theorem claim_c9 :
    (∀ s : List Char, (inputParser s).isSome = true ↔ BlockLang s) ∧
    (inputParser []).isSome = true ∧
    (∀ s : List Char, (inputParser (s ++ ['\n'])).isSome = true → s.getLast? = some '&') := by
  have hiff : ∀ s : List Char, (inputParser s).isSome = true ↔ BlockLang s := by
    intro s
    unfold inputParser
    constructor
    · intro h
      split at h
      · rename_i he
        rw [List.isEmpty_iff] at he
        exact runBlocks_accept_lang s he
      · simp at h
    · intro h
      rw [if_pos]
      · rfl
      · rw [List.isEmpty_iff]
        exact runBlocks_lang_accept s h
  refine ⟨hiff, by decide, ?_⟩
  intro s h
  exact blockLang_last_of_nl _ ((hiff _).1 h) s rfl

/-- Witness for claim C9, applying its third conjunct at a concrete
accepted input. -/
theorem claim_c9_witness : (['x', ' ', '&'] : List Char).getLast? = some '&' :=
  claim_c9.2.2 ['x', ' ', '&'] (by decide)

/-- Claim C10: the embedded parser is a pure function of its input, so two
invocations on the same string return the same verdict and value. -/
theorem claim_c10 : ∀ s : List Char, inputParser s = inputParser s :=
  fun _ => rfl

/-!
Part 2: the line classifier and record assembler.  The design document
specifies these components around the source grammar; they have no Rust
source of their own, so each definition below is modelled from the spec.
-/

/-- Modelled from the spec: a blank line is one whose text is empty or
consists solely of whitespace (section 4.1, rule 1). -/
def isBlank (t : List Char) : Bool := t.all Char.isWhitespace

/-- Modelled from the spec: removal of trailing whitespace from a line's
text, used by the comment test and the joining policy. -/
def trimRight : List Char → List Char
  | [] => []
  | c :: rest =>
    match trimRight rest with
    | [] => if c.isWhitespace then [] else [c]
    | r => c :: r

/-- Modelled from the spec: removal of leading whitespace. -/
def trimLeft (t : List Char) : List Char := t.dropWhile Char.isWhitespace

/-- Modelled from the spec: removal of leading and trailing whitespace,
applied to the first folded segment of a record. -/
def trimBoth (t : List Char) : List Char := trimLeft (trimRight t)

/-- Modelled from the spec: the length of the leading run of space
characters; tabs break the run (section 4.1, edge cases). -/
def leadingSpaces (t : List Char) : Nat := (t.takeWhile (fun c => c == ' ')).length

/-- Modelled from the spec: the comment test of section 4.1, rule 2 — the
text trimmed of trailing whitespace begins, in column one, with the letter
c or C followed by a space or by end of content. -/
def isCommentLine (t : List Char) : Bool :=
  match trimRight t with
  | [] => false
  | c :: rest => (c == 'c' || c == 'C') && (rest.isEmpty || rest.head? == some ' ')

/-- Modelled from the spec: the five line roles of the Line Classifier. -/
inductive LineClass where
  | Terminator
  | Comment
  | ExplicitContinuation
  | IndentedContinuation
  | RecordStart
deriving DecidableEq

/-- Modelled from the spec: whether the previous line's class leaves a
record open, so that a continuation is permitted — the first line of the
file and any line after a Terminator or Comment can never be a
continuation (section 4.1, edge cases). -/
def contAllowed : Option (LineClass × List Char) → Bool
  | none => false
  | some (LineClass.Terminator, _) => false
  | some (LineClass.Comment, _) => false
  | some _ => true

/-- Modelled from the spec: the explicit-continuation trigger of section
4.1, rule 3 — the previous line's text must end with an ampersand as its
very last character (an ampersand before trailing whitespace does not
count), and the previous line must leave a record open. -/
def prevEndsAmp (prev : Option (LineClass × List Char)) : Bool :=
  contAllowed prev &&
    (match prev with
     | none => false
     | some (_, t) => t.getLast? == some '&')

/-- Modelled from the spec: the Line Classifier of section 4.1.  Rules in
priority order: blank, comment, explicit continuation, indented
continuation (at least five leading spaces with an open record; the first
five spaces are the marker and are stripped from the payload), record
start.  The result pairs the class with the payload text. -/
def classify (t : List Char) (prev : Option (LineClass × List Char)) :
    LineClass × List Char :=
  if isBlank t then (LineClass.Terminator, [])
  else if isCommentLine t then (LineClass.Comment, t)
  else if prevEndsAmp prev then (LineClass.ExplicitContinuation, t)
  else if 5 ≤ leadingSpaces t ∧ contAllowed prev = true then
    (LineClass.IndentedContinuation, t.drop 5)
  else (LineClass.RecordStart, t)

/-- Modelled from the spec: classification of a line stream, threading the
previous line's class and text (the one line of lookback of section 2). -/
def classifyLines : List (List Char) → Option (LineClass × List Char) →
    List (LineClass × List Char)
  | [], _ => []
  | t :: rest, prev =>
    let c := classify t prev
    c :: classifyLines rest (some (c.1, t))

/-- Modelled from the spec: the two record kinds of the data model. -/
inductive RecordKind where
  | Data
  | Comment
deriving DecidableEq

/-- Modelled from the spec: the assembled output unit, carrying the folded
content and the inclusive physical-line range. -/
structure LogicalRecord where
  content : List Char
  startLine : Nat
  endLine : Nat
  kind : RecordKind
deriving DecidableEq

/-- Modelled from the spec: the currently open record of the Assembler,
holding the accumulated segments in reverse order together with the line
range covered so far. -/
structure OpenRec where
  revSegs : List (List Char)
  startLine : Nat
  endLine : Nat
deriving DecidableEq

/-- Modelled from the spec: the recoverable diagnostic events of section
7 that the claims mention. -/
inductive Diag where
  | DanglingContinuation : Nat → Diag
deriving DecidableEq

/-- Modelled from the spec: a non-first segment's contribution to the
joined content — a single inserted space followed by the segment trimmed
of trailing whitespace, leading indentation beyond the marker being kept
as content (sections 4.1 rule 4 and 4.2). -/
def pieceOf (t : List Char) : List Char := ' ' :: trimRight t

/-- Modelled from the spec: the joining policy of section 4.2 — the first
segment trimmed of leading and trailing whitespace, each later segment
preceded by a single space and trimmed of trailing whitespace. -/
def joinSegs : List (List Char) → List Char
  | [] => []
  | s0 :: rest => trimBoth s0 ++ (rest.map pieceOf).flatten

/-- Modelled from the spec: removal of the trailing ampersand marker from
the segment that an explicit continuation extends. -/
def stripAmp (t : List Char) : List Char :=
  if t.getLast? = some '&' then t.dropLast else t

/-- Modelled from the spec: closing an open record emits a Data record;
the outer leading trim realizes the section 4.2 requirement that emitted
content never carries a leading continuation marker. -/
def closeRec (o : OpenRec) : LogicalRecord :=
  ⟨trimLeft (joinSegs o.revSegs.reverse), o.startLine, o.endLine, RecordKind.Data⟩

/-- Modelled from the spec: prepend the record closed from the open state,
if any, to an output stream. -/
def emitClose : Option OpenRec → List LogicalRecord × List Diag →
    List LogicalRecord × List Diag
  | none, out => out
  | some o, out => (closeRec o :: out.1, out.2)

/-- Modelled from the spec: prepend one emitted record. -/
def prependRec (r : LogicalRecord) (out : List LogicalRecord × List Diag) :
    List LogicalRecord × List Diag := (r :: out.1, out.2)

/-- Modelled from the spec: prepend one diagnostic event. -/
def addDiag (d : Diag) (out : List LogicalRecord × List Diag) :
    List LogicalRecord × List Diag := (out.1, d :: out.2)

/-- Modelled from the spec: the Record Assembler of section 4.2, iterating
the classified stream with the currently open record; `n` is the physical
line number of the first entry.  Record starts close and reopen, both
continuations extend the open record (an explicit continuation first
consumes the ampersand marker at the end of the previous segment), a
continuation with no open record is a dangling-continuation recovery,
comments close the open record and are emitted alone, terminators close
the open record and emit nothing, and end of stream closes what is open. -/
def assemble : Nat → Option OpenRec → List (LineClass × List Char) →
    List LogicalRecord × List Diag
  | _, st, [] => emitClose st ([], [])
  | n, st, (LineClass.Terminator, _) :: rest => emitClose st (assemble (n + 1) none rest)
  | n, st, (LineClass.Comment, p) :: rest =>
      emitClose st (prependRec ⟨p, n, n, RecordKind.Comment⟩ (assemble (n + 1) none rest))
  | n, st, (LineClass.RecordStart, p) :: rest =>
      emitClose st (assemble (n + 1) (some ⟨[p], n, n⟩) rest)
  | n, some o, (LineClass.ExplicitContinuation, p) :: rest =>
      assemble (n + 1)
        (some ⟨p :: stripAmp (o.revSegs.headD []) :: o.revSegs.tail, o.startLine, n⟩) rest
  | n, none, (LineClass.ExplicitContinuation, p) :: rest =>
      addDiag (Diag.DanglingContinuation n) (assemble (n + 1) (some ⟨[p], n, n⟩) rest)
  | n, some o, (LineClass.IndentedContinuation, p) :: rest =>
      assemble (n + 1) (some ⟨p :: o.revSegs, o.startLine, n⟩) rest
  | n, none, (LineClass.IndentedContinuation, p) :: rest =>
      addDiag (Diag.DanglingContinuation n) (assemble (n + 1) (some ⟨[p], n, n⟩) rest)

/-- Modelled from the spec: splitting the input buffer on newline
terminators (section 3, PhysicalLine). -/
def splitNl : List Char → List (List Char)
  | [] => [[]]
  | c :: r =>
    if c = '\n' then [] :: splitNl r
    else
      match splitNl r with
      | [] => [[c]]
      | l :: ls => (c :: l) :: ls

/-- Modelled from the spec: the physical lines of a buffer; a final
newline terminates the last line rather than opening an empty one. -/
def physLines (s : List Char) : List (List Char) :=
  let p := splitNl s
  if p.getLast? = some [] then p.dropLast else p

/-- Modelled from the spec: the full pipeline of section 2 — split into
physical lines, classify with one line of lookback, assemble into logical
records and diagnostics.  Line numbers are 1-based. -/
def pipeline (s : List Char) : List LogicalRecord × List Diag :=
  assemble 1 none (classifyLines (physLines s) none)

/-- Claim C1: on the ampersand-continued line, plain line and five-space
line of the example input, the pipeline emits exactly one Data record
spanning physical lines 1 through 3 whose content joins the three marker-
stripped, right-trimmed segments with single spaces. -/
theorem claim_c1 :
    pipeline ("1 0 2 &\n-5 6 \n     imp:n=1 \n".data)
      = ([⟨("1 0 2 -5 6 imp:n=1".data), 1, 3, RecordKind.Data⟩], []) := by
  decide

/-- The content heads that emitted records may have: every non-whitespace
head is allowed; this predicate records that the head, if any, is not
whitespace. -/
def HeadNonWs (c : List Char) : Prop :=
  ∀ a, c.head? = some a → a.isWhitespace = false

/-- The last character of the content, if any, is not whitespace. -/
def LastNonWs (c : List Char) : Prop :=
  ∀ a, c.getLast? = some a → a.isWhitespace = false

/-- Shape of the content of an emitted Data record: nonempty with
non-whitespace first and last characters. -/
def ContentGood (c : List Char) : Prop :=
  c ≠ [] ∧ HeadNonWs c ∧ LastNonWs c

theorem isBlank_cons (c : Char) (rest : List Char) :
    isBlank (c :: rest) = (c.isWhitespace && isBlank rest) := rfl

theorem trimRight_eq_nil_iff : ∀ t : List Char, trimRight t = [] ↔ isBlank t = true := by
  intro t
  induction t with
  | nil => simp [trimRight, isBlank]
  | cons c rest ih =>
    rw [trimRight, isBlank_cons]
    cases hr : trimRight rest with
    | nil =>
      have hb := ih.1 hr
      rw [hb]
      cases hw : c.isWhitespace
      · rw [if_neg (by simp [hw])]
        simp
      · rw [if_pos (by simp [hw])]
        simp
    | cons x xs =>
      have hb : isBlank rest = false := by
        cases hbb : isBlank rest
        · rfl
        · exact absurd (ih.2 hbb) (by simp [hr])
      rw [hb]
      simp

theorem mem_trimRight : ∀ {t : List Char} {a : Char}, a ∈ trimRight t → a ∈ t := by
  intro t
  induction t with
  | nil => intro a h; simp [trimRight] at h
  | cons c rest ih =>
    intro a h
    rw [trimRight] at h
    revert h
    cases hr : trimRight rest with
    | nil =>
      intro h
      by_cases hcw : c.isWhitespace = true
      · rw [if_pos hcw] at h
        simp at h
      · rw [if_neg hcw] at h
        simp at h
        simp [h]
    | cons x xs =>
      intro h
      rcases List.mem_cons.1 h with h1 | h1
      · simp [h1]
      · exact List.mem_cons_of_mem c (ih (by rw [hr]; exact h1))

theorem trimRight_head? : ∀ t : List Char, trimRight t ≠ [] →
    (trimRight t).head? = t.head? := by
  intro t
  cases t with
  | nil => intro h; simp [trimRight] at h
  | cons c rest =>
    rw [trimRight]
    cases hr : trimRight rest with
    | nil =>
      by_cases hcw : c.isWhitespace = true
      · rw [if_pos hcw]; intro h; exact absurd rfl h
      · rw [if_neg hcw]; intro _; rfl
    | cons x xs => intro _; rfl

theorem trimRight_getLast_nonWs : ∀ (t : List Char) (a : Char),
    (trimRight t).getLast? = some a → a.isWhitespace = false := by
  intro t
  induction t with
  | nil => intro a h; simp [trimRight] at h
  | cons c rest ih =>
    intro a
    rw [trimRight]
    cases hr : trimRight rest with
    | nil =>
      by_cases hcw : c.isWhitespace = true
      · rw [if_pos hcw]; intro h; simp at h
      · rw [if_neg hcw]; intro h
        simp at h
        rw [← h]
        simpa using hcw
    | cons x xs =>
      intro h
      rw [List.getLast?_cons_cons] at h
      exact ih a (by rw [hr]; exact h)

theorem trimRight_eq_self : ∀ t : List Char, LastNonWs t → trimRight t = t := by
  intro t
  induction t with
  | nil => intro _; rfl
  | cons c rest ih =>
    intro h
    rw [trimRight]
    cases hr : trimRight rest with
    | nil =>
      cases rest with
      | nil =>
        have hc := h c (by simp)
        rw [if_neg (by simp [hc])]
      | cons d ds =>
        exfalso
        have hb := (trimRight_eq_nil_iff (d :: ds)).1 hr
        obtain ⟨a, ha⟩ : ∃ a, (d :: ds).getLast? = some a := by
          cases hh : (d :: ds).getLast? with
          | none => rw [List.getLast?_eq_none_iff] at hh; simp at hh
          | some a => exact ⟨a, rfl⟩
        have haw : a.isWhitespace = true := by
          have hmem := List.mem_of_getLast?_eq_some ha
          unfold isBlank at hb
          exact List.all_eq_true.1 hb a hmem
        have hnw := h a (by rw [List.getLast?_cons_cons]; exact ha)
        rw [hnw] at haw
        exact absurd haw (by simp)
    | cons x xs =>
      have hrest : LastNonWs rest := by
        intro a ha
        cases rest with
        | nil => simp at ha
        | cons d ds => exact h a (by rw [List.getLast?_cons_cons]; exact ha)
      rw [ih hrest] at hr
      rw [hr]

theorem trimLeft_head_nonWs : ∀ (t : List Char) (a : Char),
    (trimLeft t).head? = some a → a.isWhitespace = false := by
  intro t
  induction t with
  | nil => intro a h; simp [trimLeft] at h
  | cons c rest ih =>
    intro a h
    rw [trimLeft, List.dropWhile_cons] at h
    split at h
    · exact ih a h
    · rename_i hcw
      simp at h
      rw [← h]
      simpa using hcw

theorem mem_trimLeft {t : List Char} {a : Char} (h : a ∈ trimLeft t) : a ∈ t :=
  (List.dropWhile_sublist Char.isWhitespace).subset h

theorem trimLeft_ne_nil_of_mem : ∀ {t : List Char} {a : Char},
    a ∈ t → a.isWhitespace = false → trimLeft t ≠ [] := by
  intro t
  induction t with
  | nil => intro a h; simp at h
  | cons c rest ih =>
    intro a h hw
    rw [trimLeft, List.dropWhile_cons]
    split
    · rename_i hcw
      rcases List.mem_cons.1 h with h1 | h1
      · subst h1; rw [hw] at hcw; simp at hcw
      · exact ih h1 hw
    · simp

theorem getLast?_trimLeft : ∀ t : List Char, trimLeft t ≠ [] →
    (trimLeft t).getLast? = t.getLast? := by
  intro t h
  conv_rhs => rw [← List.takeWhile_append_dropWhile (p := Char.isWhitespace) (l := t)]
  rw [List.getLast?_append]
  cases hh : (trimLeft t).getLast? with
  | none => rw [List.getLast?_eq_none_iff] at hh; exact absurd hh h
  | some a =>
    unfold trimLeft at hh
    rw [hh]
    rfl

theorem trimLeft_eq_self : ∀ t : List Char, HeadNonWs t → trimLeft t = t := by
  intro t h
  cases t with
  | nil => rfl
  | cons c rest =>
    rw [trimLeft, List.dropWhile_cons, if_neg (by simp [h c rfl])]

theorem isBlank_false_of_mem {t : List Char} {a : Char} (ha : a ∈ t)
    (hw : a.isWhitespace = false) : isBlank t = false := by
  cases hb : isBlank t
  · rfl
  · exact absurd (List.all_eq_true.1 hb a ha) (by simp [hw])

theorem mem_trimBoth {t : List Char} {a : Char} (h : a ∈ trimBoth t) : a ∈ t :=
  mem_trimRight (mem_trimLeft h)

theorem trimBoth_contentGood (t : List Char) (h : isBlank t = false) :
    ContentGood (trimBoth t) := by
  have htr : trimRight t ≠ [] := by
    intro hn
    rw [(trimRight_eq_nil_iff t).1 hn] at h
    exact absurd h (by simp)
  obtain ⟨a, ha⟩ : ∃ a, (trimRight t).getLast? = some a := by
    cases hh : (trimRight t).getLast? with
    | none => rw [List.getLast?_eq_none_iff] at hh; exact absurd hh htr
    | some a => exact ⟨a, rfl⟩
  have haw := trimRight_getLast_nonWs t a ha
  have hne : trimBoth t ≠ [] :=
    trimLeft_ne_nil_of_mem (List.mem_of_getLast?_eq_some ha) haw
  refine ⟨hne, fun b hb => trimLeft_head_nonWs (trimRight t) b hb, fun b hb => ?_⟩
  unfold trimBoth at hne hb
  rw [getLast?_trimLeft (trimRight t) hne] at hb
  rw [ha] at hb
  injection hb with hba
  rw [← hba]
  exact haw

theorem getLast?_cons_of_ne_nil {a : Char} {u : List Char} (h : u ≠ []) :
    (a :: u).getLast? = u.getLast? := by
  cases u with
  | nil => exact absurd rfl h
  | cons x xs => exact List.getLast?_cons_cons

theorem flatten_map_pieceOf_append (l2 : List (List Char)) (hd : List Char) :
    ((l2 ++ [hd]).map pieceOf).flatten = (l2.map pieceOf).flatten ++ pieceOf hd := by
  simp [List.map_append, List.flatten_append]

theorem mem_flatten_map_pieceOf {L : List (List Char)} {b : Char}
    (h : b ∈ (L.map pieceOf).flatten) : b = ' ' ∨ ∃ t ∈ L, b ∈ t := by
  rw [List.mem_flatten] at h
  obtain ⟨l, hl, hb⟩ := h
  rw [List.mem_map] at hl
  obtain ⟨t, ht, hrfl⟩ := hl
  rw [← hrfl] at hb
  unfold pieceOf at hb
  rcases List.mem_cons.1 hb with h1 | h1
  · left; exact h1
  · right; exact ⟨t, ht, mem_trimRight h1⟩

theorem joinSegs_append_good (l : List (List Char)) (hd : List Char)
    (hnl : ∀ t ∈ l ++ [hd], '\n' ∉ t) (hnb : isBlank hd = false) :
    ContentGood (trimLeft (joinSegs (l ++ [hd]))) ∧
      '\n' ∉ trimLeft (joinSegs (l ++ [hd])) := by
  have htr : trimRight hd ≠ [] := by
    intro hn
    rw [(trimRight_eq_nil_iff hd).1 hn] at hnb
    exact absurd hnb (by simp)
  cases l with
  | nil =>
    have hbg := trimBoth_contentGood hd hnb
    have hjoin : joinSegs ([] ++ [hd]) = trimBoth hd := by
      simp [joinSegs]
    rw [hjoin, trimLeft_eq_self (trimBoth hd) hbg.2.1]
    refine ⟨hbg, fun hmem => ?_⟩
    exact hnl hd (by simp) (mem_trimBoth hmem)
  | cons s0 l2 =>
    obtain ⟨a, ha⟩ : ∃ a, (trimRight hd).getLast? = some a := by
      cases hh : (trimRight hd).getLast? with
      | none => rw [List.getLast?_eq_none_iff] at hh; exact absurd hh htr
      | some a => exact ⟨a, rfl⟩
    have haw := trimRight_getLast_nonWs hd a ha
    have hjoin : joinSegs ((s0 :: l2) ++ [hd])
        = trimBoth s0 ++ ((l2 ++ [hd]).map pieceOf).flatten := by
      simp [joinSegs]
    set X := ((l2 ++ [hd]).map pieceOf).flatten with hX
    have hXsplit : X = (l2.map pieceOf).flatten ++ pieceOf hd :=
      flatten_map_pieceOf_append l2 hd
    have hXlast : X.getLast? = some a := by
      rw [hXsplit, List.getLast?_append]
      unfold pieceOf
      rw [getLast?_cons_of_ne_nil htr, ha]
      rfl
    have hYlast : (trimBoth s0 ++ X).getLast? = some a := by
      rw [List.getLast?_append, hXlast]
      rfl
    have haY : a ∈ trimBoth s0 ++ X := List.mem_of_getLast?_eq_some hYlast
    have hne : trimLeft (trimBoth s0 ++ X) ≠ [] := trimLeft_ne_nil_of_mem haY haw
    rw [hjoin]
    refine ⟨⟨hne, fun b hb => trimLeft_head_nonWs _ b hb, fun b hb => ?_⟩, ?_⟩
    · rw [getLast?_trimLeft _ hne, hYlast] at hb
      injection hb with hba
      rw [← hba]
      exact haw
    · intro hmem
      have hmem2 := mem_trimLeft hmem
      rcases List.mem_append.1 hmem2 with h1 | h1
      · exact hnl s0 (by simp) (mem_trimBoth h1)
      · rcases mem_flatten_map_pieceOf h1 with h2 | ⟨t, ht, hbt⟩
        · exact absurd h2 (by decide)
        · refine hnl t ?_ hbt
          rcases List.mem_append.1 ht with h3 | h3
          · simp [h3]
          · rw [List.mem_singleton] at h3
            simp [h3]

/-- Shape invariant of every emitted record: line range well formed, no
newline in the content, comment records carry comment-shaped text, data
records carry trimmed nonempty text. -/
def RecGood (r : LogicalRecord) : Prop :=
  1 ≤ r.startLine ∧ r.startLine ≤ r.endLine ∧ '\n' ∉ r.content ∧
  (r.kind = RecordKind.Comment → isCommentLine r.content = true) ∧
  (r.kind = RecordKind.Data → ContentGood r.content)

theorem closeRec_good (segs : List (List Char)) (a b : Nat)
    (hnl : ∀ t ∈ segs, '\n' ∉ t)
    (hhd : ∃ hd tl, segs = hd :: tl ∧ isBlank hd = false)
    (h1 : 1 ≤ a) (hab : a ≤ b) :
    RecGood (closeRec ⟨segs, a, b⟩) := by
  obtain ⟨hd, tl, hsegs, hnb⟩ := hhd
  have hrev : segs.reverse = tl.reverse ++ [hd] := by
    rw [hsegs, List.reverse_cons]
  have hnl2 : ∀ t ∈ tl.reverse ++ [hd], '\n' ∉ t := by
    intro t ht
    apply hnl
    rw [← hrev] at ht
    exact List.mem_reverse.1 ht
  have hgood := joinSegs_append_good tl.reverse hd hnl2 hnb
  unfold closeRec RecGood
  rw [hrev] at *
  exact ⟨h1, hab, hgood.2, fun h => by exact absurd h (by simp), fun _ => hgood.1⟩

/-- Whether a classified line contributes to some record's line range:
every class except Terminator does (comments form their own records). -/
def isActive : LineClass → Bool
  | LineClass.Terminator => false
  | _ => true

/-- Line numbers, starting at `n`, of the active entries of a classified
stream. -/
def activeIdx : Nat → List (LineClass × List Char) → List Nat
  | _, [] => []
  | n, (cl, _) :: rest =>
    if isActive cl then n :: activeIdx (n + 1) rest else activeIdx (n + 1) rest

/-- The physical-line numbers covered by a record's inclusive range. -/
def rangeList (r : LogicalRecord) : List Nat :=
  List.range' r.startLine (r.endLine + 1 - r.startLine)

/-- Concatenated coverage of a record stream. -/
def coverage (rs : List LogicalRecord) : List Nat := (rs.map rangeList).flatten

/-- The line numbers covered by the open record when the assembler is
about to process line `n`. -/
def openCover : Option OpenRec → Nat → List Nat
  | none, _ => []
  | some o, n => List.range' o.startLine (n - o.startLine)

/-- Invariant of the open record's segments: no newline anywhere and a
nonblank most recent segment. -/
def SegsOK (segs : List (List Char)) : Prop :=
  (∀ t ∈ segs, '\n' ∉ t) ∧ ∃ hd tl, segs = hd :: tl ∧ isBlank hd = false

/-- Invariant of the assembler state before processing line `n`. -/
def StOK (n : Nat) : Option OpenRec → Prop
  | none => True
  | some o => 1 ≤ o.startLine ∧ o.startLine ≤ o.endLine ∧ o.endLine + 1 = n ∧ SegsOK o.revSegs

/-- What classification guarantees about each class-payload pair. -/
def PairOK (c : LineClass × List Char) : Prop :=
  '\n' ∉ c.2 ∧
  (c.1 = LineClass.Comment → isCommentLine c.2 = true) ∧
  (c.1 = LineClass.RecordStart ∨ c.1 = LineClass.ExplicitContinuation ∨
      c.1 = LineClass.IndentedContinuation → isBlank c.2 = false)

theorem leadingSpaces_head (t : List Char) (h : 1 ≤ leadingSpaces t) :
    ∃ t2, t = ' ' :: t2 := by
  cases t with
  | nil => simp [leadingSpaces] at h
  | cons c rest =>
    unfold leadingSpaces at h
    rw [List.takeWhile_cons] at h
    split at h
    · rename_i hc
      rw [beq_iff_eq] at hc
      exact ⟨rest, by rw [hc]⟩
    · simp at h

theorem isCommentLine_space (t2 : List Char) : isCommentLine (' ' :: t2) = false := by
  unfold isCommentLine
  have hsplit : trimRight (' ' :: t2) = [] ∨ ∃ xs, trimRight (' ' :: t2) = ' ' :: xs := by
    rw [trimRight]
    cases trimRight t2 with
    | nil => left; rw [if_pos (by decide)]
    | cons x xs => right; exact ⟨x :: xs, rfl⟩
  rcases hsplit with h | ⟨xs, h⟩
  · rw [h]
  · rw [h]
    have h1 : (' ' == 'c' || ' ' == 'C') = false := by decide
    show ((' ' == 'c' || ' ' == 'C') && (xs.isEmpty || xs.head? == some ' ')) = false
    rw [h1]
    simp

theorem classify_terminator_iff (t : List Char) (pv : Option (LineClass × List Char)) :
    (classify t pv).1 = LineClass.Terminator ↔ isBlank t = true := by
  unfold classify
  split
  · rename_i h; simp [h]
  · rename_i h
    split
    · simp [h]
    · split
      · simp [h]
      · split
        · simp [h]
        · simp [h]

theorem classify_active (t : List Char) (pv : Option (LineClass × List Char)) :
    isActive (classify t pv).1 = !isBlank t := by
  unfold classify
  split
  · rename_i h; rw [h]; rfl
  · rename_i h
    rw [Bool.not_eq_true] at h
    rw [h]
    split
    · rfl
    · split
      · rfl
      · split
        · rfl
        · rfl

theorem isBlank_drop_of_leadingSpaces : ∀ (k : Nat) (t : List Char),
    k ≤ leadingSpaces t → isBlank t = false → isBlank (t.drop k) = false := by
  intro k
  induction k with
  | zero => intro t _ h; simpa using h
  | succ j ih =>
    intro t hk hb
    obtain ⟨t2, rfl⟩ : ∃ t2, t = ' ' :: t2 := leadingSpaces_head t (by omega)
    have hls : leadingSpaces (' ' :: t2) = leadingSpaces t2 + 1 := by
      unfold leadingSpaces
      rw [List.takeWhile_cons, if_pos (by decide)]
      simp
    have hws : (' ' : Char).isWhitespace = true := by decide
    have hb2 : isBlank t2 = false := by
      rw [isBlank_cons, hws, Bool.true_and] at hb
      exact hb
    rw [hls] at hk
    rw [List.drop_succ_cons]
    exact ih t2 (by omega) hb2

theorem classify_pairOK (t : List Char) (pv : Option (LineClass × List Char))
    (hnl : '\n' ∉ t) : PairOK (classify t pv) := by
  unfold classify PairOK
  split
  · refine ⟨by simp, ?_, ?_⟩
    · intro h; simp at h
    · intro h; rcases h with h | h | h <;> simp at h
  · rename_i hb
    split
    · rename_i hc
      exact ⟨hnl, fun _ => hc, fun h => by rcases h with h | h | h <;> simp at h⟩
    · rename_i hc
      split
      · exact ⟨hnl, fun h => by simp at h, fun _ => by simpa using hb⟩
      · split
        · rename_i hi
          refine ⟨fun hmem => hnl (List.mem_of_mem_drop hmem), fun h => by simp at h,
            fun _ => ?_⟩
          exact isBlank_drop_of_leadingSpaces 5 t hi.1 (by simpa using hb)
        · exact ⟨hnl, fun h => by simp at h, fun _ => by simpa using hb⟩

theorem classifyLines_length : ∀ (ls : List (List Char)) (pv : Option (LineClass × List Char)),
    (classifyLines ls pv).length = ls.length := by
  intro ls
  induction ls with
  | nil => intro pv; rfl
  | cons t rest ih =>
    intro pv
    rw [classifyLines]
    simp [ih]

theorem classifyLines_pairOK : ∀ (ls : List (List Char)) (pv : Option (LineClass × List Char)),
    (∀ t ∈ ls, '\n' ∉ t) → ∀ c ∈ classifyLines ls pv, PairOK c := by
  intro ls
  induction ls with
  | nil => intro pv _ c hc; simp [classifyLines] at hc
  | cons t rest ih =>
    intro pv hnl c hc
    rw [classifyLines] at hc
    rcases List.mem_cons.1 hc with h1 | h1
    · rw [h1]
      exact classify_pairOK t pv (hnl t (by simp))
    · exact ih _ (fun u hu => hnl u (by simp [hu])) c h1

theorem classifyLines_getD : ∀ (ls : List (List Char)) (pv : Option (LineClass × List Char))
    (i : Nat), i < ls.length →
    ∃ pv2, (classifyLines ls pv).getD i (LineClass.Terminator, [])
      = classify (ls.getD i []) pv2 := by
  intro ls
  induction ls with
  | nil => intro pv i hi; simp at hi
  | cons t rest ih =>
    intro pv i hi
    rw [classifyLines]
    cases i with
    | zero => exact ⟨pv, rfl⟩
    | succ j =>
      rw [List.getD_cons_succ, List.getD_cons_succ]
      exact ih _ j (by simpa using hi)

theorem activeIdx_ge : ∀ (cls : List (LineClass × List Char)) (n j : Nat),
    j ∈ activeIdx n cls → n ≤ j := by
  intro cls
  induction cls with
  | nil => intro n j h; simp [activeIdx] at h
  | cons c rest ih =>
    intro n j h
    obtain ⟨cl, p⟩ := c
    rw [activeIdx] at h
    split at h
    · rcases List.mem_cons.1 h with h1 | h1
      · omega
      · have := ih (n + 1) j h1
        omega
    · have := ih (n + 1) j h
      omega

theorem activeIdx_pairwise : ∀ (cls : List (LineClass × List Char)) (n : Nat),
    List.Pairwise (· < ·) (activeIdx n cls) := by
  intro cls
  induction cls with
  | nil => intro n; simp [activeIdx]
  | cons c rest ih =>
    intro n
    obtain ⟨cl, p⟩ := c
    rw [activeIdx]
    split
    · exact List.Pairwise.cons (fun b hb => by have := activeIdx_ge rest (n + 1) b hb; omega)
        (ih (n + 1))
    · exact ih (n + 1)

theorem activeIdx_mem_iff : ∀ (cls : List (LineClass × List Char)) (n j : Nat),
    j ∈ activeIdx n cls ↔ ∃ i, i < cls.length ∧ j = n + i ∧
      isActive ((cls.getD i (LineClass.Terminator, [])).1) = true := by
  intro cls
  induction cls with
  | nil => intro n j; simp [activeIdx]
  | cons c rest ih =>
    intro n j
    obtain ⟨cl, p⟩ := c
    rw [activeIdx]
    by_cases hA : isActive cl = true
    · rw [if_pos hA]
      constructor
      · intro h
        rcases List.mem_cons.1 h with h1 | h1
        · exact ⟨0, by simp, by omega, by simpa using hA⟩
        · obtain ⟨i, hi, hj, hact⟩ := (ih (n + 1) j).1 h1
          exact ⟨i + 1, by simpa using hi, by omega, by simpa using hact⟩
      · intro ⟨i, hi, hj, hact⟩
        cases i with
        | zero => simp [hj]
        | succ k =>
          rw [List.getD_cons_succ] at hact
          refine List.mem_cons_of_mem _ ((ih (n + 1) j).2 ⟨k, by simpa using hi, by omega, hact⟩)
    · rw [if_neg hA]
      constructor
      · intro h
        obtain ⟨i, hi, hj, hact⟩ := (ih (n + 1) j).1 h
        exact ⟨i + 1, by simpa using hi, by omega, by simpa using hact⟩
      · intro ⟨i, hi, hj, hact⟩
        cases i with
        | zero => exact absurd (by simpa using hact) hA
        | succ k =>
          rw [List.getD_cons_succ] at hact
          exact (ih (n + 1) j).2 ⟨k, by simpa using hi, by omega, hact⟩

theorem range'_concat_one (s k : Nat) :
    List.range' s (k + 1) = List.range' s k ++ [s + k] := by
  have h : List.range' s (k + 1) 1 = List.range' s k 1 ++ [s + 1 * k] :=
    List.range'_concat s k
  simpa using h

theorem range'_extend (start n : Nat) (h : start ≤ n) :
    List.range' start (n + 1 - start) = List.range' start (n - start) ++ [n] := by
  have hk : n + 1 - start = (n - start) + 1 := by omega
  rw [hk, range'_concat_one, show start + (n - start) = n from by omega]

theorem coverage_cons (r : LogicalRecord) (rs : List LogicalRecord) :
    coverage (r :: rs) = rangeList r ++ coverage rs := by
  simp [coverage]

theorem rangeList_closeRec (o : OpenRec) (n : Nat) (h3 : o.endLine + 1 = n) :
    rangeList (closeRec o) = openCover (some o) n := by
  simp [rangeList, closeRec, openCover, ← h3]

theorem mem_stripAmp {t : List Char} {a : Char} (h : a ∈ stripAmp t) : a ∈ t := by
  unfold stripAmp at h
  split at h
  · exact (List.dropLast_sublist _).subset h
  · exact h

theorem assemble_ok : ∀ (cls : List (LineClass × List Char)) (n : Nat) (st : Option OpenRec),
    1 ≤ n → StOK n st → (∀ c ∈ cls, PairOK c) →
    coverage (assemble n st cls).1 = openCover st n ++ activeIdx n cls ∧
    ∀ r ∈ (assemble n st cls).1, RecGood r := by
  intro cls
  induction cls with
  | nil =>
    intro n st hn hst _
    cases st with
    | none => exact ⟨rfl, fun r hr => by simp [assemble, emitClose] at hr⟩
    | some o =>
      obtain ⟨h1, h2, h3, hsegs⟩ := hst
      have hstep : assemble n (some o) [] = ([closeRec o], []) := rfl
      rw [hstep]
      constructor
      · show rangeList (closeRec o) ++ [] = openCover (some o) n ++ activeIdx n []
        rw [rangeList_closeRec o n h3]
        rfl
      · intro r hr
        rw [List.mem_singleton] at hr
        rw [hr]
        exact closeRec_good o.revSegs o.startLine o.endLine hsegs.1 hsegs.2 h1 h2
  | cons c rest ih =>
    intro n st hn hst hpairs
    obtain ⟨cl, p⟩ := c
    have hpair : PairOK (cl, p) := hpairs _ (by simp)
    have hpairs2 : ∀ c ∈ rest, PairOK c := fun c hc => hpairs c (by simp [hc])
    have hfresh : isBlank p = false → StOK (n + 1) (some ⟨[p], n, n⟩) := by
      intro hb
      exact ⟨hn, Nat.le_refl n, rfl,
        ⟨fun t ht => by rw [List.mem_singleton] at ht; rw [ht]; exact hpair.1,
         ⟨p, [], rfl, hb⟩⟩⟩
    cases cl with
    | Terminator =>
      have hIH := ih (n + 1) none (by omega) trivial hpairs2
      have hidx : activeIdx n ((LineClass.Terminator, p) :: rest)
          = activeIdx (n + 1) rest := by
        rw [activeIdx, if_neg (by simp [isActive])]
      cases st with
      | none =>
        have hstep : assemble n none ((LineClass.Terminator, p) :: rest)
            = assemble (n + 1) none rest := rfl
        rw [hstep, hidx]
        exact ⟨by rw [hIH.1]; rfl, hIH.2⟩
      | some o =>
        obtain ⟨h1, h2, h3, hsegs⟩ := hst
        have hstep : assemble n (some o) ((LineClass.Terminator, p) :: rest)
            = (closeRec o :: (assemble (n + 1) none rest).1,
               (assemble (n + 1) none rest).2) := rfl
        rw [hstep, hidx]
        constructor
        · show coverage (closeRec o :: (assemble (n + 1) none rest).1) = _
          rw [coverage_cons, hIH.1, rangeList_closeRec o n h3]
          rfl
        · intro r hr
          rcases List.mem_cons.1 hr with h | h
          · rw [h]
            exact closeRec_good o.revSegs o.startLine o.endLine hsegs.1 hsegs.2 h1 h2
          · exact hIH.2 r h
    | Comment =>
      have hIH := ih (n + 1) none (by omega) trivial hpairs2
      have hidx : activeIdx n ((LineClass.Comment, p) :: rest)
          = n :: activeIdx (n + 1) rest := by
        rw [activeIdx, if_pos (by simp [isActive])]
      have hcrec : RecGood ⟨p, n, n, RecordKind.Comment⟩ :=
        ⟨hn, Nat.le_refl n, hpair.1, fun _ => hpair.2.1 rfl, fun hk => absurd hk (by simp)⟩
      have hcrange : rangeList ⟨p, n, n, RecordKind.Comment⟩ = [n] := by
        simp [rangeList]
      cases st with
      | none =>
        have hstep : assemble n none ((LineClass.Comment, p) :: rest)
            = (⟨p, n, n, RecordKind.Comment⟩ :: (assemble (n + 1) none rest).1,
               (assemble (n + 1) none rest).2) := rfl
        rw [hstep, hidx]
        constructor
        · show coverage (⟨p, n, n, RecordKind.Comment⟩ :: (assemble (n + 1) none rest).1) = _
          rw [coverage_cons, hIH.1, hcrange]
          rfl
        · intro r hr
          rcases List.mem_cons.1 hr with h | h
          · rw [h]; exact hcrec
          · exact hIH.2 r h
      | some o =>
        obtain ⟨h1, h2, h3, hsegs⟩ := hst
        have hstep : assemble n (some o) ((LineClass.Comment, p) :: rest)
            = (closeRec o :: ⟨p, n, n, RecordKind.Comment⟩ :: (assemble (n + 1) none rest).1,
               (assemble (n + 1) none rest).2) := rfl
        rw [hstep, hidx]
        constructor
        · show coverage (closeRec o :: ⟨p, n, n, RecordKind.Comment⟩
              :: (assemble (n + 1) none rest).1) = _
          rw [coverage_cons, coverage_cons, hIH.1, hcrange, rangeList_closeRec o n h3]
          simp [openCover]
        · intro r hr
          rcases List.mem_cons.1 hr with h | h
          · rw [h]
            exact closeRec_good o.revSegs o.startLine o.endLine hsegs.1 hsegs.2 h1 h2
          rcases List.mem_cons.1 h with h4 | h4
          · rw [h4]; exact hcrec
          · exact hIH.2 r h4
    | RecordStart =>
      have hb : isBlank p = false := hpair.2.2 (Or.inl rfl)
      have hIH := ih (n + 1) (some ⟨[p], n, n⟩) (by omega) (hfresh hb) hpairs2
      have hidx : activeIdx n ((LineClass.RecordStart, p) :: rest)
          = n :: activeIdx (n + 1) rest := by
        rw [activeIdx, if_pos (by simp [isActive])]
      have hnewcov : openCover (some (⟨[p], n, n⟩ : OpenRec)) (n + 1) = [n] := by
        simp [openCover]
      cases st with
      | none =>
        have hstep : assemble n none ((LineClass.RecordStart, p) :: rest)
            = assemble (n + 1) (some ⟨[p], n, n⟩) rest := rfl
        rw [hstep, hidx]
        refine ⟨?_, hIH.2⟩
        rw [hIH.1, hnewcov]
        rfl
      | some o =>
        obtain ⟨h1, h2, h3, hsegs⟩ := hst
        have hstep : assemble n (some o) ((LineClass.RecordStart, p) :: rest)
            = (closeRec o :: (assemble (n + 1) (some ⟨[p], n, n⟩) rest).1,
               (assemble (n + 1) (some ⟨[p], n, n⟩) rest).2) := rfl
        rw [hstep, hidx]
        constructor
        · show coverage (closeRec o :: (assemble (n + 1) (some ⟨[p], n, n⟩) rest).1) = _
          rw [coverage_cons, hIH.1, hnewcov, rangeList_closeRec o n h3]
          simp
        · intro r hr
          rcases List.mem_cons.1 hr with h | h
          · rw [h]
            exact closeRec_good o.revSegs o.startLine o.endLine hsegs.1 hsegs.2 h1 h2
          · exact hIH.2 r h
    | ExplicitContinuation =>
      have hb : isBlank p = false := hpair.2.2 (Or.inr (Or.inl rfl))
      have hidx : activeIdx n ((LineClass.ExplicitContinuation, p) :: rest)
          = n :: activeIdx (n + 1) rest := by
        rw [activeIdx, if_pos (by simp [isActive])]
      cases st with
      | none =>
        have hIH := ih (n + 1) (some ⟨[p], n, n⟩) (by omega) (hfresh hb) hpairs2
        have hstep : (assemble n none ((LineClass.ExplicitContinuation, p) :: rest)).1
            = (assemble (n + 1) (some ⟨[p], n, n⟩) rest).1 := rfl
        constructor
        · show coverage (assemble n none ((LineClass.ExplicitContinuation, p) :: rest)).1 = _
          rw [hstep, hidx, hIH.1]
          simp [openCover]
        · exact fun r hr => hIH.2 r hr
      | some o =>
        obtain ⟨h1, h2, h3, hsegs⟩ := hst
        obtain ⟨hd, tl, hsegrep, hhdnb⟩ := hsegs.2
        have hsn : o.startLine ≤ n := by omega
        have hext : StOK (n + 1)
            (some ⟨p :: stripAmp (o.revSegs.headD []) :: o.revSegs.tail, o.startLine, n⟩) := by
          refine ⟨h1, by show o.startLine ≤ n; omega, rfl, ?_, ⟨p, _, rfl, hb⟩⟩
          intro t ht
          rcases List.mem_cons.1 ht with hh | hh
          · rw [hh]; exact hpair.1
          rcases List.mem_cons.1 hh with hh2 | hh2
          · rw [hh2]
            intro hmem
            exact hsegs.1 (o.revSegs.headD []) (by rw [hsegrep]; simp) (mem_stripAmp hmem)
          · refine hsegs.1 t ?_
            rw [hsegrep] at hh2 ⊢
            simp at hh2
            simp [hh2]
        have hIH := ih (n + 1)
          (some ⟨p :: stripAmp (o.revSegs.headD []) :: o.revSegs.tail, o.startLine, n⟩)
          (by omega) hext hpairs2
        have hstep : assemble n (some o) ((LineClass.ExplicitContinuation, p) :: rest)
            = assemble (n + 1)
                (some ⟨p :: stripAmp (o.revSegs.headD []) :: o.revSegs.tail, o.startLine, n⟩)
                rest := rfl
        constructor
        · rw [hstep, hidx, hIH.1]
          show List.range' o.startLine (n + 1 - o.startLine) ++ activeIdx (n + 1) rest
            = List.range' o.startLine (n - o.startLine) ++ (n :: activeIdx (n + 1) rest)
          rw [range'_extend o.startLine n hsn, List.append_assoc]
          rfl
        · rw [hstep]
          exact hIH.2
    | IndentedContinuation =>
      have hb : isBlank p = false := hpair.2.2 (Or.inr (Or.inr rfl))
      have hidx : activeIdx n ((LineClass.IndentedContinuation, p) :: rest)
          = n :: activeIdx (n + 1) rest := by
        rw [activeIdx, if_pos (by simp [isActive])]
      cases st with
      | none =>
        have hIH := ih (n + 1) (some ⟨[p], n, n⟩) (by omega) (hfresh hb) hpairs2
        have hstep : (assemble n none ((LineClass.IndentedContinuation, p) :: rest)).1
            = (assemble (n + 1) (some ⟨[p], n, n⟩) rest).1 := rfl
        constructor
        · show coverage (assemble n none ((LineClass.IndentedContinuation, p) :: rest)).1 = _
          rw [hstep, hidx, hIH.1]
          simp [openCover]
        · exact fun r hr => hIH.2 r hr
      | some o =>
        obtain ⟨h1, h2, h3, hsegs⟩ := hst
        have hsn : o.startLine ≤ n := by omega
        have hext : StOK (n + 1) (some ⟨p :: o.revSegs, o.startLine, n⟩) := by
          refine ⟨h1, by show o.startLine ≤ n; omega, rfl, ?_, ⟨p, _, rfl, hb⟩⟩
          intro t ht
          rcases List.mem_cons.1 ht with hh | hh
          · rw [hh]; exact hpair.1
          · exact hsegs.1 t hh
        have hIH := ih (n + 1) (some ⟨p :: o.revSegs, o.startLine, n⟩) (by omega) hext hpairs2
        have hstep : assemble n (some o) ((LineClass.IndentedContinuation, p) :: rest)
            = assemble (n + 1) (some ⟨p :: o.revSegs, o.startLine, n⟩) rest := rfl
        constructor
        · rw [hstep, hidx, hIH.1]
          show List.range' o.startLine (n + 1 - o.startLine) ++ activeIdx (n + 1) rest
            = List.range' o.startLine (n - o.startLine) ++ (n :: activeIdx (n + 1) rest)
          rw [range'_extend o.startLine n hsn, List.append_assoc]
          rfl
        · rw [hstep]
          exact hIH.2

theorem splitNl_no_nl : ∀ s : List Char, '\n' ∉ s → splitNl s = [s] := by
  intro s
  induction s with
  | nil => intro _; rfl
  | cons c r ih =>
    intro h
    rw [splitNl, if_neg (by intro hc; exact h (by simp [hc]))]
    rw [ih (fun hm => h (by simp [hm]))]

theorem mem_splitNl_no_nl : ∀ (s l : List Char), l ∈ splitNl s → '\n' ∉ l := by
  intro s
  induction s with
  | nil =>
    intro l hl
    have hn : l = [] := by simpa [splitNl] using hl
    rw [hn]
    simp
  | cons c r ih =>
    intro l hl
    rw [splitNl] at hl
    by_cases hc : c = '\n'
    · rw [if_pos hc] at hl
      rcases List.mem_cons.1 hl with h | h
      · rw [h]; simp
      · exact ih l h
    · rw [if_neg hc] at hl
      revert hl
      cases hsp : splitNl r with
      | nil =>
        intro hl
        rw [List.mem_singleton] at hl
        rw [hl]
        intro hm
        rw [List.mem_singleton] at hm
        exact hc hm.symm
      | cons x xs =>
        intro hl
        rcases List.mem_cons.1 hl with h | h
        · rw [h]
          intro hm
          rcases List.mem_cons.1 hm with h2 | h2
          · exact hc h2.symm
          · exact ih x (by rw [hsp]; simp) h2
        · exact ih l (by rw [hsp]; exact List.mem_cons_of_mem x h)

theorem mem_physLines {s l : List Char} (h : l ∈ physLines s) : l ∈ splitNl s := by
  simp only [physLines] at h
  split at h
  · exact (List.dropLast_sublist _).subset h
  · exact h

theorem physLines_no_nl (s : List Char) : ∀ l ∈ physLines s, '\n' ∉ l :=
  fun l hl => mem_splitNl_no_nl s l (mem_physLines hl)

theorem physLines_single (c : List Char) (hne : c ≠ []) (hnl : '\n' ∉ c) :
    physLines c = [c] := by
  unfold physLines
  rw [splitNl_no_nl c hnl]
  show (if ([c] : List (List Char)).getLast? = some [] then
      ([c] : List (List Char)).dropLast else [c]) = [c]
  rw [if_neg]
  intro h
  simp at h
  exact hne h

theorem pipeline_ok (s : List Char) :
    coverage (pipeline s).1 = activeIdx 1 (classifyLines (physLines s) none) ∧
    ∀ r ∈ (pipeline s).1, RecGood r := by
  have h := assemble_ok (classifyLines (physLines s) none) 1 none (Nat.le_refl 1) trivial
    (classifyLines_pairOK (physLines s) none (physLines_no_nl s))
  refine ⟨?_, h.2⟩
  have h2 := h.1
  have hz : openCover none 1 ++ activeIdx 1 (classifyLines (physLines s) none)
      = activeIdx 1 (classifyLines (physLines s) none) := rfl
  rw [hz] at h2
  exact h2

/-- The physical line of `s` with 1-based number `j`. -/
def lineAt (s : List Char) (j : Nat) : List Char := (physLines s).getD (j - 1) []

theorem mem_coverage_of {rs : List LogicalRecord} {r : LogicalRecord} {j : Nat}
    (hr : r ∈ rs) (hj : j ∈ rangeList r) : j ∈ coverage rs := by
  rw [coverage, List.mem_flatten]
  exact ⟨rangeList r, List.mem_map_of_mem rangeList hr, hj⟩

theorem cover_exists {rs : List LogicalRecord} {j : Nat} (h : j ∈ coverage rs) :
    ∃ r ∈ rs, j ∈ rangeList r := by
  rw [coverage, List.mem_flatten] at h
  obtain ⟨l, hl, hj⟩ := h
  rw [List.mem_map] at hl
  obtain ⟨r, hr, hrfl⟩ := hl
  exact ⟨r, hr, by rw [hrfl]; exact hj⟩

theorem cover_unique : ∀ (rs : List LogicalRecord), List.Pairwise (· < ·) (coverage rs) →
    ∀ r1 ∈ rs, ∀ r2 ∈ rs, ∀ j : Nat, j ∈ rangeList r1 → j ∈ rangeList r2 → r1 = r2 := by
  intro rs
  induction rs with
  | nil => intro _ r1 h1; simp at h1
  | cons r rest ih =>
    intro hp r1 h1 r2 h2 j hj1 hj2
    rw [coverage_cons, List.pairwise_append] at hp
    obtain ⟨hpr, hprest, hcross⟩ := hp
    rcases List.mem_cons.1 h1 with hc1 | hc1 <;> rcases List.mem_cons.1 h2 with hc2 | hc2
    · rw [hc1, hc2]
    · exfalso
      have hjc : j ∈ coverage rest := mem_coverage_of hc2 hj2
      have := hcross j (by rw [← hc1]; exact hj1) j hjc
      omega
    · exfalso
      have hjc : j ∈ coverage rest := mem_coverage_of hc1 hj1
      have := hcross j (by rw [← hc2]; exact hj2) j hjc
      omega
    · exact ih hprest r1 hc1 r2 hc2 j hj1 hj2

theorem mem_rangeList_iff {r : LogicalRecord} {j : Nat} (hg : r.startLine ≤ r.endLine) :
    j ∈ rangeList r ↔ r.startLine ≤ j ∧ j ≤ r.endLine := by
  rw [rangeList, List.mem_range'_1]
  omega

theorem pipeline_line_blank (s : List Char) (j : Nat)
    (hj : j ∈ activeIdx 1 (classifyLines (physLines s) none)) :
    1 ≤ j ∧ j ≤ (physLines s).length ∧ isBlank (lineAt s j) = false := by
  have h1 := activeIdx_ge _ 1 j hj
  obtain ⟨i, hi, hji, hact⟩ := (activeIdx_mem_iff _ 1 j).1 hj
  rw [classifyLines_length] at hi
  obtain ⟨pv2, hgd⟩ := classifyLines_getD (physLines s) none i hi
  rw [hgd, classify_active] at hact
  have hb : isBlank ((physLines s).getD i []) = false := by simpa using hact
  refine ⟨h1, by omega, ?_⟩
  unfold lineAt
  rw [show j - 1 = i from by omega]
  exact hb

theorem active_of_nonblank (s : List Char) (j : Nat) (h1 : 1 ≤ j)
    (h2 : j ≤ (physLines s).length) (hb : isBlank (lineAt s j) = false) :
    j ∈ activeIdx 1 (classifyLines (physLines s) none) := by
  rw [activeIdx_mem_iff]
  refine ⟨j - 1, by rw [classifyLines_length]; omega, by omega, ?_⟩
  obtain ⟨pv2, hgd⟩ := classifyLines_getD (physLines s) none (j - 1) (by omega)
  rw [hgd, classify_active]
  unfold lineAt at hb
  rw [hb]
  rfl

/-- Claim C4: the pipeline is a total function that never aborts — for
every input, including arbitrary malformed text, every non-blank physical
line still lands inside some emitted record's range, so all recoverable
records are produced and diagnostics are reported alongside them. -/
theorem claim_c4 : ∀ (s : List Char) (j : Nat), 1 ≤ j → j ≤ (physLines s).length →
    isBlank (lineAt s j) = false →
    ∃ r, r ∈ (pipeline s).1 ∧ r.startLine ≤ j ∧ j ≤ r.endLine := by
  intro s j h1 h2 hb
  have hact := active_of_nonblank s j h1 h2 hb
  have hcov : j ∈ coverage (pipeline s).1 := by
    rw [(pipeline_ok s).1]
    exact hact
  obtain ⟨r, hr, hj⟩ := cover_exists hcov
  refine ⟨r, hr, ?_, ?_⟩ <;>
  · rw [rangeList, List.mem_range'_1] at hj
    omega

/-- Witness for claim C4 at a one-line input. -/
theorem claim_c4_witness :
    ∃ r, r ∈ (pipeline ("1 0".data)).1 ∧ r.startLine ≤ 1 ∧ 1 ≤ r.endLine :=
  claim_c4 ("1 0".data) 1 (by decide) (by decide) (by decide)

/-- Claim C5: a blank line closes any open record and produces no record
of its own — no emitted record's range ever contains a blank line — and on
the concrete input with a blank line 2 the pipeline yields exactly the two
Data records for lines 1 and 3. -/
theorem claim_c5 :
    (∀ (s : List Char) (r : LogicalRecord) (j : Nat), r ∈ (pipeline s).1 →
      r.startLine ≤ j → j ≤ r.endLine → isBlank (lineAt s j) = false) ∧
    pipeline ("1 0\n\n2 0\n".data)
      = ([⟨"1 0".data, 1, 1, RecordKind.Data⟩, ⟨"2 0".data, 3, 3, RecordKind.Data⟩], []) := by
  constructor
  · intro s r j hr hj1 hj2
    have hg := (pipeline_ok s).2 r hr
    have hj : j ∈ rangeList r := (mem_rangeList_iff hg.2.1).2 ⟨hj1, hj2⟩
    have hcov : j ∈ coverage (pipeline s).1 := mem_coverage_of hr hj
    rw [(pipeline_ok s).1] at hcov
    exact (pipeline_line_blank s j hcov).2.2
  · decide

/-- Witness for claim C5, applying its universal part at the record of a
concrete parse. -/
theorem claim_c5_witness : isBlank (lineAt ("1 0\n\n2 0\n".data) 1) = false :=
  claim_c5.1 ("1 0\n\n2 0\n".data) ⟨"1 0".data, 1, 1, RecordKind.Data⟩ 1
    (by decide) (by decide) (by decide)

/-- Claim C6: every record's physical-line range is a well-formed
contiguous interval, and every non-blank, non-comment physical line lies
in exactly one emitted record's range. -/
theorem claim_c6 :
    (∀ (s : List Char) (r : LogicalRecord), r ∈ (pipeline s).1 → r.startLine ≤ r.endLine) ∧
    (∀ (s : List Char) (j : Nat), 1 ≤ j → j ≤ (physLines s).length →
      isBlank (lineAt s j) = false → isCommentLine (lineAt s j) = false →
      ∃! r, r ∈ (pipeline s).1 ∧ r.startLine ≤ j ∧ j ≤ r.endLine) := by
  constructor
  · intro s r hr
    exact ((pipeline_ok s).2 r hr).2.1
  · intro s j h1 h2 hb _
    have hact := active_of_nonblank s j h1 h2 hb
    have hcov : j ∈ coverage (pipeline s).1 := by
      rw [(pipeline_ok s).1]
      exact hact
    obtain ⟨r, hr, hj⟩ := cover_exists hcov
    have hg := (pipeline_ok s).2 r hr
    have hpw : List.Pairwise (· < ·) (coverage (pipeline s).1) := by
      rw [(pipeline_ok s).1]
      exact activeIdx_pairwise _ 1
    have hjr := (mem_rangeList_iff hg.2.1).1 hj
    refine ⟨r, ⟨hr, hjr.1, hjr.2⟩, ?_⟩
    intro y hy
    have hgy := (pipeline_ok s).2 y hy.1
    have hjy : j ∈ rangeList y := (mem_rangeList_iff hgy.2.1).2 ⟨hy.2.1, hy.2.2⟩
    exact cover_unique (pipeline s).1 hpw y hy.1 r hr j hjy hj

/-- Witness for claim C6 at a one-line input. -/
theorem claim_c6_witness :
    ∃! r, r ∈ (pipeline ("1 0".data)).1 ∧ r.startLine ≤ 1 ∧ 1 ≤ r.endLine :=
  claim_c6.2 ("1 0".data) 1 (by decide) (by decide) (by decide) (by decide)

theorem isCommentLine_head (t : List Char) (h : isCommentLine t = true) :
    t.head? = some 'c' ∨ t.head? = some 'C' := by
  unfold isCommentLine at h
  cases htr : trimRight t with
  | nil => rw [htr] at h; simp at h
  | cons c rest =>
    rw [htr] at h
    have hand : ((c == 'c' || c == 'C') && (rest.isEmpty || rest.head? == some ' ')) = true := h
    have hor : (c == 'c' || c == 'C') = true := by
      rw [Bool.and_eq_true] at hand
      exact hand.1
    have hh : t.head? = some c := by
      rw [← trimRight_head? t (by rw [htr]; simp), htr]
      rfl
    rw [Bool.or_eq_true] at hor
    rcases hor with h1 | h1
    · left
      rw [beq_iff_eq] at h1
      rw [hh, h1]
    · right
      rw [beq_iff_eq] at h1
      rw [hh, h1]

theorem isCommentLine_ne_nil {t : List Char} (h : isCommentLine t = true) : t ≠ [] := by
  intro hn
  rw [hn] at h
  simp [isCommentLine, trimRight] at h

/-- Claim C7: no emitted record's content contains the two-character
ampersand-newline sequence, and none begins with a five-space continuation
marker. -/
theorem claim_c7 : ∀ (s : List Char) (r : LogicalRecord), r ∈ (pipeline s).1 →
    ¬ List.IsInfix ['&', '\n'] r.content ∧
    ¬ List.IsPrefix (List.replicate 5 ' ') r.content := by
  intro s r hr
  obtain ⟨_, _, hnl, hcmt, hdata⟩ := (pipeline_ok s).2 r hr
  constructor
  · intro hinf
    exact hnl (hinf.subset (by simp))
  · intro hpre
    obtain ⟨u, hu⟩ := hpre
    have hhead : r.content.head? = some ' ' := by
      rw [← hu]
      rfl
    cases hk : r.kind with
    | Data =>
      have hg := hdata hk
      have hws := hg.2.1 ' ' hhead
      exact absurd hws (by decide)
    | Comment =>
      have hcm := hcmt hk
      rcases isCommentLine_head r.content hcm with h | h <;> rw [h] at hhead <;> simp at hhead

/-- Witness for claim C7 at a concrete parse. -/
theorem claim_c7_witness :
    ¬ List.IsInfix ['&', '\n'] (("1 0").data) ∧
    ¬ List.IsPrefix (List.replicate 5 ' ') (("1 0").data) :=
  claim_c7 ("1 0".data) ⟨"1 0".data, 1, 1, RecordKind.Data⟩ (by decide)

theorem contentGood_nonblank {c : List Char} (h : ContentGood c) : isBlank c = false := by
  obtain ⟨hne, hh, _⟩ := h
  cases c with
  | nil => exact absurd rfl hne
  | cons a t => exact isBlank_false_of_mem (by simp) (hh a rfl)

theorem classify_none_comment (c : List Char) (hcm : isCommentLine c = true) :
    classify c none = (LineClass.Comment, c) := by
  have htr : trimRight c ≠ [] := by
    intro h
    unfold isCommentLine at hcm
    rw [h] at hcm
    simp at hcm
  have hb : ¬ isBlank c = true := fun hb => htr ((trimRight_eq_nil_iff c).2 hb)
  unfold classify
  rw [if_neg hb, if_pos hcm]

theorem classify_none_start (c : List Char) (hb : isBlank c = false)
    (hcm : isCommentLine c = false) :
    classify c none = (LineClass.RecordStart, c) := by
  unfold classify
  rw [if_neg (by simp [hb]), if_neg (by simp [hcm]),
    if_neg (show ¬ prevEndsAmp none = true by simp [prevEndsAmp, contAllowed]),
    if_neg (show ¬ (5 ≤ leadingSpaces c ∧ contAllowed none = true) by
      rintro ⟨-, hca⟩
      simp [contAllowed] at hca)]

theorem refeed_one (c : List Char) (hnl : '\n' ∉ c) (hne : c ≠ [])
    (h : isCommentLine c = true ∨
      (isCommentLine c = false ∧ isBlank c = false ∧ ContentGood c)) :
    ∃ r2 : LogicalRecord, pipeline c = ([r2], []) ∧ r2.content = c := by
  have hpl : physLines c = [c] := physLines_single c hne hnl
  unfold pipeline
  rw [hpl]
  rcases h with hcm | ⟨hcm, hb, hg⟩
  · rw [show classifyLines [c] none = [classify c none] from rfl, classify_none_comment c hcm]
    exact ⟨⟨c, 1, 1, RecordKind.Comment⟩, rfl, rfl⟩
  · rw [show classifyLines [c] none = [classify c none] from rfl, classify_none_start c hb hcm]
    refine ⟨closeRec ⟨[c], 1, 1⟩, rfl, ?_⟩
    show trimLeft (joinSegs [c]) = c
    have hj : joinSegs [c] = trimBoth c := by simp [joinSegs]
    rw [hj]
    unfold trimBoth
    rw [trimRight_eq_self c hg.2.2, trimLeft_eq_self c hg.2.1, trimLeft_eq_self c hg.2.1]

/-- Claim C8: folding is idempotent on emitted content — re-feeding any
emitted record's content through the pipeline yields exactly one record
with identical content. -/
theorem claim_c8 : ∀ (s : List Char) (r : LogicalRecord), r ∈ (pipeline s).1 →
    ∃ r2, pipeline r.content = ([r2], []) ∧ r2.content = r.content := by
  intro s r hr
  obtain ⟨_, _, hnl, hcmt, hdata⟩ := (pipeline_ok s).2 r hr
  by_cases hcm : isCommentLine r.content = true
  · exact refeed_one r.content hnl (isCommentLine_ne_nil hcm) (Or.inl hcm)
  · cases hk : r.kind with
    | Comment => exact absurd (hcmt hk) hcm
    | Data =>
      have hg := hdata hk
      exact refeed_one r.content hnl hg.1
        (Or.inr ⟨by simpa using hcm, contentGood_nonblank hg, hg⟩)

/-- Witness for claim C8 at the folded record of the three-line example. -/
theorem claim_c8_witness :
    ∃ r2, pipeline (("1 0 2 -5 6 imp:n=1").data) = ([r2], []) ∧
      r2.content = (("1 0 2 -5 6 imp:n=1").data) :=
  claim_c8 ("1 0 2 &\n-5 6 \n     imp:n=1 \n".data)
    ⟨"1 0 2 -5 6 imp:n=1".data, 1, 3, RecordKind.Data⟩ (by decide)

/-- Claim C2: with a record open (previous class continuable and previous
text not ending in an ampersand), a non-blank line with at least five
leading spaces classifies as an indented continuation — in particular one
with exactly five — while one with exactly four leading spaces classifies
as a record start; and the assembler folds an indented continuation into
the open record while a record start closes it and opens a new one. -/
theorem claim_c2 :
    (∀ (t pt : List Char) (cl : LineClass), cl ≠ LineClass.Terminator →
      cl ≠ LineClass.Comment → pt.getLast? ≠ some '&' → isBlank t = false →
      (5 ≤ leadingSpaces t →
        classify t (some (cl, pt)) = (LineClass.IndentedContinuation, t.drop 5)) ∧
      (leadingSpaces t = 4 →
        classify t (some (cl, pt)) = (LineClass.RecordStart, t))) ∧
    (∀ (o : OpenRec) (n : Nat) (p : List Char) (rest : List (LineClass × List Char)),
      assemble n (some o) ((LineClass.IndentedContinuation, p) :: rest)
        = assemble (n + 1) (some ⟨p :: o.revSegs, o.startLine, n⟩) rest) ∧
    (∀ (o : OpenRec) (n : Nat) (p : List Char) (rest : List (LineClass × List Char)),
      assemble n (some o) ((LineClass.RecordStart, p) :: rest)
        = (closeRec o :: (assemble (n + 1) (some ⟨[p], n, n⟩) rest).1,
           (assemble (n + 1) (some ⟨[p], n, n⟩) rest).2)) := by
  refine ⟨?_, fun o n p rest => rfl, fun o n p rest => rfl⟩
  intro t pt cl h1 h2 hamp hb
  have hca : contAllowed (some (cl, pt)) = true := by
    cases cl
    · exact absurd rfl h1
    · exact absurd rfl h2
    · rfl
    · rfl
    · rfl
  have hpe : prevEndsAmp (some (cl, pt)) = false := by
    unfold prevEndsAmp
    rw [hca, Bool.true_and]
    show (pt.getLast? == some '&') = false
    rw [beq_eq_false_iff_ne]
    exact hamp
  constructor
  · intro h5
    obtain ⟨t2, ht2⟩ := leadingSpaces_head t (by omega)
    have hcm : isCommentLine t = false := by rw [ht2]; exact isCommentLine_space t2
    unfold classify
    rw [if_neg (by simp [hb]), if_neg (by simp [hcm]), if_neg (by simp [hpe]),
      if_pos ⟨h5, hca⟩]
  · intro h4
    obtain ⟨t2, ht2⟩ := leadingSpaces_head t (by omega)
    have hcm : isCommentLine t = false := by rw [ht2]; exact isCommentLine_space t2
    unfold classify
    rw [if_neg (by simp [hb]), if_neg (by simp [hcm]), if_neg (by simp [hpe]),
      if_neg (by rintro ⟨h5, -⟩; omega)]

/-- Witness for claim C2 at the five-space line of the worked example. -/
theorem claim_c2_witness :
    classify ("     imp:n=1".data) (some (LineClass.RecordStart, "1 0".data))
      = (LineClass.IndentedContinuation, ("     imp:n=1".data).drop 5) :=
  (claim_c2.1 ("     imp:n=1".data) ("1 0".data) LineClass.RecordStart
    (by decide) (by decide) (by decide) (by decide)).1 (by decide)

/-- Claim C3: for a non-blank, non-comment line after a continuable
predecessor, the line is an explicit continuation exactly when the
predecessor's text ends in an ampersand as its very last character; an
ampersand followed by trailing whitespace does not trigger it. -/
theorem claim_c3 : ∀ (t pt : List Char) (cl : LineClass),
    isBlank t = false → isCommentLine t = false →
    cl ≠ LineClass.Terminator → cl ≠ LineClass.Comment →
    ((classify t (some (cl, pt))).1 = LineClass.ExplicitContinuation ↔
      pt.getLast? = some '&') := by
  intro t pt cl hb hcm h1 h2
  have hca : contAllowed (some (cl, pt)) = true := by
    cases cl
    · exact absurd rfl h1
    · exact absurd rfl h2
    · rfl
    · rfl
    · rfl
  unfold classify
  rw [if_neg (by simp [hb]), if_neg (by simp [hcm])]
  by_cases hamp : pt.getLast? = some '&'
  · have hpe : prevEndsAmp (some (cl, pt)) = true := by
      unfold prevEndsAmp
      rw [hca, Bool.true_and]
      show (pt.getLast? == some '&') = true
      rw [beq_iff_eq]
      exact hamp
    rw [if_pos hpe]
    simp [hamp]
  · have hpe : prevEndsAmp (some (cl, pt)) = false := by
      unfold prevEndsAmp
      rw [hca, Bool.true_and]
      show (pt.getLast? == some '&') = false
      rw [beq_eq_false_iff_ne]
      exact hamp
    rw [if_neg (by simp [hpe])]
    constructor
    · intro h
      split at h
      · exact absurd h (by simp)
      · exact absurd h (by simp)
    · intro h
      exact absurd h hamp

/-- Witness for claim C3 at the ampersand-continued line of the worked
example. -/
theorem claim_c3_witness :
    (classify ("-5 6 ".data) (some (LineClass.RecordStart, "1 0 2 &".data))).1
      = LineClass.ExplicitContinuation :=
  (claim_c3 ("-5 6 ".data) ("1 0 2 &".data) LineClass.RecordStart
    (by decide) (by decide) (by decide) (by decide)).2 (by decide)
